import Mathlib

/-!
Verification of the markdown job-posting tracker (`src/main.py`, `src/local.py`).

Strings are modelled as `List Char` (Python 3 strings are sequences of code
points).  Python functions are translated into executable Lean definitions:
`sanitize_filename`, `create_markdown_content`, the two description
formatters, the two field-extraction parsers (with a JSON parser modelling
`json.loads`), BeautifulSoup-style content selection, and the post-extraction
stage of `main`.  Backend calls (Gemini / local LLM) are modelled by an
`Except` parameter carrying either the raised error or the response text.
-/

set_option maxRecDepth 4096

namespace MT

/-- Characters matched by Python's regex class `\s` and stripped by
`str.strip()` (the ASCII fragment; the repository never manipulates
non-ASCII whitespace). -/
def isPySpace (c : Char) : Bool :=
  c = ' ' || c = '\t' || c = '\n' || c = '\r' || c = '\x0b' || c = '\x0c'

/-- Characters removed by `re.sub(r'[<>:"/\\|?*]', '', name)` in
`sanitize_filename`. -/
def isIllegal (c : Char) : Bool :=
  c = '<' || c = '>' || c = ':' || c = '\"' || c = '/' || c = '\\' ||
  c = '|' || c = '?' || c = '*'

/-- Worker for `re.sub(r'\s+', ' ', name)`: each maximal run of whitespace
is replaced by a single space.  The flag records whether the scanner is
currently inside a whitespace run. -/
def collapseGo : Bool → List Char → List Char
  | _, [] => []
  | inRun, c :: rest =>
    if isPySpace c then
      if inRun then collapseGo true rest
      else ' ' :: collapseGo true rest
    else c :: collapseGo false rest

/-- Python `re.sub(r'\s+', ' ', name)`. -/
def collapseWS (l : List Char) : List Char := collapseGo false l

/-- Python `str.lstrip()` (whitespace only). -/
def striplWS (l : List Char) : List Char := l.dropWhile isPySpace

/-- Python `str.rstrip()` (whitespace only). -/
def striprWS (l : List Char) : List Char := (l.reverse.dropWhile isPySpace).reverse

/-- Python `str.strip()` (whitespace only). -/
def pyStrip (l : List Char) : List Char := striprWS (striplWS l)

/-- Fallback name used by `sanitize_filename` for empty input/output. -/
def defaultFilename : List Char := "Unnamed Job Posting".toList

/-- `sanitize_filename` from `src/main.py` lines 40-47 (identical in
`src/local.py` lines 44-51): drop characters illegal on Windows, collapse
whitespace runs to single spaces, strip, truncate to 150 characters, and
fall back to a default name when the input or result is empty. -/
def sanitize_filename (name : List Char) : List Char :=
  if name = [] then defaultFilename
  else
    let n1 := name.filter (fun c => !isIllegal c)
    let n2 := pyStrip (collapseWS n1)
    let n3 := n2.take 150
    if n3 = [] then defaultFilename else n3

/-- Relation stating that two adjacent characters are not both whitespace. -/
def noWSPair (a b : Char) : Prop := ¬(isPySpace a = true ∧ isPySpace b = true)

theorem collapseGo_mem {c : Char} :
    ∀ (b : Bool) (l : List Char), c ∈ collapseGo b l → c ∈ l ∨ c = ' ' := by
  intro b l
  induction l generalizing b with
  | nil => simp [collapseGo]
  | cons d rest ih =>
    intro hmem
    simp only [collapseGo] at hmem
    by_cases hws : isPySpace d
    · simp [hws] at hmem
      cases b with
      | true =>
        simp at hmem
        rcases ih true hmem with h | h
        · exact Or.inl (List.mem_cons_of_mem _ h)
        · exact Or.inr h
      | false =>
        simp at hmem
        rcases hmem with h | h
        · exact Or.inr h
        · rcases ih true h with h' | h'
          · exact Or.inl (List.mem_cons_of_mem _ h')
          · exact Or.inr h'
    · simp [hws] at hmem
      rcases hmem with h | h
      · exact Or.inl (h ▸ List.mem_cons_self _ _)
      · rcases ih false h with h' | h'
        · exact Or.inl (List.mem_cons_of_mem _ h')
        · exact Or.inr h'

theorem collapseGo_ws_space :
    ∀ (b : Bool) (l : List Char), ∀ c ∈ collapseGo b l,
      isPySpace c = true → c = ' ' := by
  intro b l
  induction l generalizing b with
  | nil => simp [collapseGo]
  | cons d rest ih =>
    intro c hmem hws
    simp only [collapseGo] at hmem
    by_cases hd : isPySpace d
    · simp [hd] at hmem
      cases b with
      | true => exact ih true c (by simpa using hmem) hws
      | false =>
        simp at hmem
        rcases hmem with h | h
        · exact h
        · exact ih true c h hws
    · simp [hd] at hmem
      rcases hmem with h | h
      · subst h; simp [hws] at hd
      · exact ih false c h hws

theorem collapseGo_true_head :
    ∀ (l : List Char) (c : Char), (collapseGo true l).head? = some c →
      isPySpace c = false := by
  intro l
  induction l with
  | nil => simp [collapseGo]
  | cons d rest ih =>
    intro c h
    simp only [collapseGo] at h
    by_cases hws : isPySpace d
    · simp [hws] at h
      exact ih c h
    · simp [hws] at h
      subst h
      simpa using hws

theorem collapseGo_chain :
    ∀ (b : Bool) (l : List Char), List.Chain' noWSPair (collapseGo b l) := by
  intro b l
  induction l generalizing b with
  | nil => simp [collapseGo]
  | cons d rest ih =>
    simp only [collapseGo]
    by_cases hws : isPySpace d
    · simp [hws]
      cases b with
      | true => exact ih true
      | false =>
        simp
        rw [List.chain'_cons']
        refine ⟨?_, ih true⟩
        intro y hy
        have : isPySpace y = false := collapseGo_true_head rest y hy
        simp [noWSPair, this]
    · simp [hws]
      rw [List.chain'_cons']
      refine ⟨?_, ih false⟩
      intro y _
      simp [noWSPair, hws]

theorem collapseGo_id :
    ∀ (l : List Char), (∀ c ∈ l, isPySpace c = true → c = ' ') →
      List.Chain' noWSPair l →
      collapseGo false l = l ∧
        ((∀ c, l.head? = some c → isPySpace c = false) → collapseGo true l = l) := by
  intro l
  induction l with
  | nil => simp [collapseGo]
  | cons d rest ih =>
    intro hsp hch
    have hsp' : ∀ c ∈ rest, isPySpace c = true → c = ' ' := by
      intro c hc; exact hsp c (List.mem_cons_of_mem _ hc)
    have hch' : List.Chain' noWSPair rest := (List.chain'_cons'.mp hch).2
    have ihr := ih hsp' hch'
    constructor
    · simp only [collapseGo]
      by_cases hws : isPySpace d
      · have hd : d = ' ' := hsp d (List.mem_cons_self _ _) hws
        simp [hws]
        have hhead : ∀ c, rest.head? = some c → isPySpace c = false := by
          intro c hc
          have := (List.chain'_cons'.mp hch).1 c hc
          simp [noWSPair, hws] at this
          simpa using this
        exact ⟨hd.symm, ihr.2 hhead⟩
      · simp [hws]
        exact ihr.1
    · intro hhd
      have : isPySpace d = false := hhd d rfl
      simp only [collapseGo, this]
      simp
      exact ihr.1

theorem dropWhile_head_false (p : Char → Bool) :
    ∀ (l : List Char) (c : Char), (l.dropWhile p).head? = some c → p c = false := by
  intro l
  induction l with
  | nil => simp [List.dropWhile]
  | cons d rest ih =>
    intro c h
    rw [List.dropWhile_cons] at h
    by_cases hp : p d
    · simp [hp] at h
      exact ih c h
    · simp [hp] at h
      subst h
      simpa using hp

theorem dropWhile_eq_self_of_head (p : Char → Bool) (l : List Char)
    (h : ∀ c, l.head? = some c → p c = false) : l.dropWhile p = l := by
  cases l with
  | nil => rfl
  | cons d rest =>
    rw [List.dropWhile_cons]
    simp [h d rfl]

/-- `striprWS` keeps a front segment of its input. -/
theorem striprWS_front (l : List Char) : striprWS l <+: l := by
  unfold striprWS
  have h := List.dropWhile_suffix (l := l.reverse) isPySpace
  rcases h with ⟨t, ht⟩
  refine ⟨t.reverse, ?_⟩
  have := congrArg List.reverse ht
  simpa [List.reverse_append] using this

theorem striprWS_getLast (l : List Char) (c : Char)
    (h : (striprWS l).getLast? = some c) : isPySpace c = false := by
  unfold striprWS at h
  rw [List.getLast?_reverse] at h
  exact dropWhile_head_false isPySpace l.reverse c h

theorem striprWS_eq_self (l : List Char)
    (h : ∀ c, l.getLast? = some c → isPySpace c = false) : striprWS l = l := by
  unfold striprWS
  rw [dropWhile_eq_self_of_head]
  · exact List.reverse_reverse l
  · intro c hc
    rw [List.head?_reverse] at hc
    exact h c hc

theorem pyStrip_head (l : List Char) (c : Char)
    (h : (pyStrip l).head? = some c) : isPySpace c = false := by
  unfold pyStrip at h
  have hpre := striprWS_front (striplWS l)
  cases hps : striprWS (striplWS l) with
  | nil => rw [hps] at h; simp at h
  | cons d t =>
    rw [hps] at h
    simp at h
    rw [hps] at hpre
    rcases hpre with ⟨u, hu⟩
    have : (striplWS l).head? = some d := by
      rw [← hu]; simp
    rw [← h]
    exact dropWhile_head_false isPySpace l d this

theorem pyStrip_getLast (l : List Char) (c : Char)
    (h : (pyStrip l).getLast? = some c) : isPySpace c = false :=
  striprWS_getLast _ c h

theorem pyStrip_eq_self (l : List Char)
    (hh : ∀ c, l.head? = some c → isPySpace c = false)
    (hl : ∀ c, l.getLast? = some c → isPySpace c = false) : pyStrip l = l := by
  unfold pyStrip striplWS
  rw [dropWhile_eq_self_of_head isPySpace l hh]
  exact striprWS_eq_self l hl

/-- Characters of `pyStrip l` come from `l`. -/
theorem pyStrip_subset (l : List Char) : pyStrip l ⊆ l := by
  intro c hc
  unfold pyStrip at hc
  have h1 : c ∈ striplWS l := (striprWS_front _).subset hc
  exact (List.dropWhile_sublist _).subset h1

/-- `pyStrip` preserves chain conditions. -/
theorem pyStrip_chain {l : List Char} (h : List.Chain' noWSPair l) :
    List.Chain' noWSPair (pyStrip l) := by
  unfold pyStrip
  have h1 : List.Chain' noWSPair (striplWS l) :=
    h.suffix (List.dropWhile_suffix _)
  exact List.Chain'.prefix h1 (striprWS_front _)

/-- Main identity lemma: `sanitize_filename` is the identity on strings that
are already in sanitized shape. -/
theorem sanitize_id (s : List Char) (hne : s ≠ []) (hlen : s.length ≤ 150)
    (hil : ∀ c ∈ s, isIllegal c = false)
    (hsp : ∀ c ∈ s, isPySpace c = true → c = ' ')
    (hch : List.Chain' noWSPair s)
    (hhd : ∀ c, s.head? = some c → isPySpace c = false)
    (hlast : ∀ c, s.getLast? = some c → isPySpace c = false) :
    sanitize_filename s = s := by
  have h1 : s.filter (fun c => !isIllegal c) = s := by
    rw [List.filter_eq_self]
    intro c hc
    simp [hil c hc]
  have h2 : collapseWS s = s := (collapseGo_id s hsp hch).1
  have h3 : pyStrip s = s := pyStrip_eq_self s hhd hlast
  simp only [sanitize_filename, if_neg hne, h1, h2, h3, List.take_of_length_le hlen]

/-- Case analysis on the two return paths of `sanitize_filename`. -/
theorem sanitize_cases (name : List Char) :
    sanitize_filename name = defaultFilename ∨
      (sanitize_filename name =
        (pyStrip (collapseWS (name.filter (fun c => !isIllegal c)))).take 150 ∧
       sanitize_filename name ≠ []) := by
  unfold sanitize_filename
  by_cases h0 : name = []
  · simp [h0]
  · simp only [if_neg h0]
    by_cases h3 : (pyStrip (collapseWS (name.filter (fun c => !isIllegal c)))).take 150 = []
    · simp [h3]
    · simp [h3]

theorem sanitize_default_id : sanitize_filename defaultFilename = defaultFilename := by
  decide

/--
Claim C1 (amended).  `sanitize_filename` always returns a non-empty name of
at most 150 characters, and it is idempotent on every input whose sanitized
form does not end in a space.  (Idempotence fails in general: truncation to
150 characters can leave a trailing space which a second application strips —
see `c1_counterexample`.)
-/
theorem c1_sanitize (name : List Char) :
    sanitize_filename name ≠ [] ∧ (sanitize_filename name).length ≤ 150 ∧
      ((sanitize_filename name).getLast? ≠ some ' ' →
        sanitize_filename (sanitize_filename name) = sanitize_filename name) := by
  rcases sanitize_cases name with h | ⟨h, hne⟩
  · rw [h]
    exact ⟨by decide, by decide, fun _ => sanitize_default_id⟩
  · have hsub : sanitize_filename name ⊆
        collapseWS (name.filter (fun c => !isIllegal c)) := by
      rw [h]
      intro c hc
      exact pyStrip_subset _ ( List.take_subset _ _ hc)
    have hsp : ∀ c ∈ sanitize_filename name, isPySpace c = true → c = ' ' := by
      intro c hc hws
      exact collapseGo_ws_space false _ c (hsub hc) hws
    have hil : ∀ c ∈ sanitize_filename name, isIllegal c = false := by
      intro c hc
      rcases collapseGo_mem false _ (hsub hc) with h' | h'
      · have := List.of_mem_filter h'
        simpa using this
      · subst h'; decide
    have hch : List.Chain' noWSPair (sanitize_filename name) := by
      rw [h]
      exact List.Chain'.prefix (pyStrip_chain (collapseGo_chain false _))
        ( List.take_prefix _ _)
    have hhd : ∀ c, (sanitize_filename name).head? = some c → isPySpace c = false := by
      intro c hc
      rw [h, List.head?_take] at hc
      simp at hc
      exact pyStrip_head _ c hc
    have hlen : (sanitize_filename name).length ≤ 150 := by
      rw [h, List.length_take]
      exact Nat.min_le_left _ _
    refine ⟨hne, hlen, ?_⟩
    intro hlast'
    have hlast : ∀ c, (sanitize_filename name).getLast? = some c → isPySpace c = false := by
      intro c hc
      by_contra hws
      simp at hws
      have hc' := hsp c (List.mem_of_getLast?_eq_some hc) hws
      subst hc'
      exact hlast' hc
    exact sanitize_id _ hne hlen hil hsp hch hhd hlast

/--
Claim C1 witness: the amended idempotence theorem applied at a concrete name.
-/
theorem c1_sanitize_witness :
    sanitize_filename "Acme - Dev.md".toList ≠ [] ∧
      (sanitize_filename "Acme - Dev.md".toList).length ≤ 150 ∧
      sanitize_filename (sanitize_filename "Acme - Dev.md".toList) =
        sanitize_filename "Acme - Dev.md".toList := by
  have h := c1_sanitize "Acme - Dev.md".toList
  exact ⟨h.1, h.2.1, h.2.2 (by decide)⟩

/--
Claim C1 counterexample: `sanitize_filename` is not idempotent as stated.
For a 151-character input whose 150-character truncation ends in a space
(149 copies of `a`, a space, then `b`), the first application returns the
149 `a`s followed by a trailing space, and the second application strips
that space, so the two results differ.
-/
theorem c1_counterexample :
    sanitize_filename (sanitize_filename (List.replicate 149 'a' ++ [' ', 'b'])) ≠
      sanitize_filename (List.replicate 149 'a' ++ [' ', 'b']) := by
  decide

/-- Python `content.replace('\r\n', '\n')`: a single left-to-right pass that
replaces each non-overlapping CRLF pair by LF. -/
def crlfToLf : List Char → List Char
  | '\r' :: '\n' :: rest => '\n' :: crlfToLf rest
  | c :: rest => c :: crlfToLf rest
  | [] => []

/-- The dictionary passed to `create_markdown_content` in `main` (string
values; a missing key models a defensive `data.get(key, '')` miss). -/
structure MdData where
  company : Option (List Char) := none
  role : Option (List Char) := none
  location : Option (List Char) := none
  comp : Option (List Char) := none
  req : Option (List Char) := none
  description : Option (List Char) := none
  date_applied : Option (List Char) := none
  link : Option (List Char) := none

/-- Python `data.get(key, '')`. -/
def pyGet (o : Option (List Char)) : List Char := o.getD []

/-- The f-string template of `create_markdown_content` (`src/main.py` lines
53-73, identical in `src/local.py`), before line-ending normalization. -/
def mdRaw (d : MdData) : List Char :=
  "---\ncompany: ".toList ++ pyGet d.company ++
  "\ntags:\n  - jobpost\nrole: ".toList ++ pyGet d.role ++
  "\nlocation: ".toList ++ pyGet d.location ++
  "\napplied: true\ndate_applied: ".toList ++ pyGet d.date_applied ++
  "\nrecruiter_screen: ''\ninterview: false\nrejection: false\ndeclined: false\ncomp: ".toList ++
  pyGet d.comp ++
  "\nreq: ".toList ++ pyGet d.req ++
  "\nlink: ".toList ++ pyGet d.link ++
  "\n---\n\n## Description\n\n".toList ++ pyGet d.description ++
  "\n".toList

/-- `create_markdown_content` from `src/main.py` lines 49-75 (identical in
`src/local.py` lines 53-78): instantiate the fixed header template and apply
`content.replace('\r\n', '\n')`. -/
def create_markdown_content (d : MdData) : List Char := crlfToLf (mdRaw d)

/-- Python `text.split('\n')`. -/
def splitLines : List Char → List (List Char)
  | [] => [[]]
  | '\n' :: rest => [] :: splitLines rest
  | c :: rest =>
    match splitLines rest with
    | [] => [[c]]
    | l :: ls => (c :: l) :: ls

theorem splitLines_ne_nil : ∀ (l : List Char), splitLines l ≠ [] := by
  intro l
  induction l with
  | nil => simp [splitLines]
  | cons c rest ih =>
    by_cases h : c = '\n'
    · subst h; simp [splitLines]
    · simp only [splitLines]
      cases hr : splitLines rest with
      | nil => exact absurd hr ih
      | cons a as => simp [h]

theorem splitLines_cons_ne (c : Char) (rest : List Char) (h : c ≠ '\n') :
    splitLines (c :: rest) =
      (c :: (splitLines rest).headI) :: (splitLines rest).tail := by
  simp only [splitLines]
  cases hr : splitLines rest with
  | nil => exact absurd hr (splitLines_ne_nil rest)
  | cons a as => simp [h]

/-- Splitting distributes over an explicit newline separator. -/
theorem splitLines_append (A B : List Char) :
    splitLines (A ++ '\n' :: B) = splitLines A ++ splitLines B := by
  induction A with
  | nil => simp [splitLines]
  | cons c rest ih =>
    by_cases h : c = '\n'
    · subst h
      simp only [List.cons_append, splitLines, List.append_eq]
      rw [ih]
    · rw [List.cons_append, splitLines_cons_ne c _ h, splitLines_cons_ne c rest h, ih]
      cases hr : splitLines rest with
      | nil => exact absurd hr (splitLines_ne_nil rest)
      | cons a as => simp

theorem splitLines_no_nl (A : List Char) (h : '\n' ∉ A) : splitLines A = [A] := by
  induction A with
  | nil => rfl
  | cons c rest ih =>
    have hc : c ≠ '\n' := fun e => h (e ▸ List.mem_cons_self _ _)
    have hr : '\n' ∉ rest := fun hm => h (List.mem_cons_of_mem _ hm)
    rw [splitLines_cons_ne c rest hc, ih hr]
    simp

theorem crlfToLf_cons_ne (c : Char) (rest : List Char) (h : c ≠ '\r') :
    crlfToLf (c :: rest) = c :: crlfToLf rest := by
  rw [crlfToLf.eq_def]
  split
  · rename_i r heq
    rw [List.cons.injEq] at heq
    exact absurd heq.1 h
  · rename_i c' r' hne heq
    injection heq with h1 h2
    subst h1; subst h2; rfl
  · simp_all

theorem crlfToLf_of_no_cr : ∀ (l : List Char), '\r' ∉ l → crlfToLf l = l := by
  intro l
  induction l with
  | nil => intro _; rfl
  | cons c rest ih =>
    intro h
    have hc : c ≠ '\r' := fun e => h (e ▸ List.mem_cons_self _ _)
    have hr : '\r' ∉ rest := fun hm => h (List.mem_cons_of_mem _ hm)
    rw [crlfToLf_cons_ne c rest hc, ih hr]

/-- Check that every carriage return in a text starts a CRLF pair and is not
itself preceded by another carriage return — the texts on which a single
non-rescanning `replace('\r\n', '\n')` pass removes every CR. -/
def noLoneCR : List Char → Bool
  | [] => true
  | '\r' :: '\n' :: rest => noLoneCR rest
  | '\r' :: _ => false
  | _ :: rest => noLoneCR rest

theorem noLoneCR_cons_ne (c : Char) (rest : List Char) (h : c ≠ '\r') :
    noLoneCR (c :: rest) = noLoneCR rest := by
  rw [noLoneCR.eq_def]
  split
  · rename_i heq
    simp at heq
  · rename_i r heq
    rw [List.cons.injEq] at heq
    exact absurd heq.1 h
  · rename_i x heq
    rw [List.cons.injEq] at heq
    exact absurd heq.1 h
  · rename_i c' r' h1 h2 heq
    injection heq with ha hb
    subst ha; subst hb; rfl

theorem crlfToLf_no_cr : ∀ (l : List Char), noLoneCR l = true → '\r' ∉ crlfToLf l := by
  intro l
  induction l using crlfToLf.induct with
  | case1 rest ih =>
    intro h hm
    have hrest : noLoneCR rest = true := h
    have hstep : crlfToLf ('\r' :: '\n' :: rest) = '\n' :: crlfToLf rest := rfl
    rw [hstep] at hm
    rcases List.mem_cons.mp hm with h' | h'
    · exact absurd h' (by decide)
    · exact ih hrest h'
  | case2 c rest hshape ih =>
    intro h hm
    by_cases hc : c = '\r'
    · subst hc
      exfalso
      rw [noLoneCR.eq_def] at h
      split at h
      · rename_i heq
        simp at heq
      · rename_i r heq
        rw [List.cons.injEq] at heq
        exact hshape r rfl heq.2
      · simp at h
      · rename_i c' r' h1 h2 heq
        rw [List.cons.injEq] at heq
        exact h2 heq.1.symm
    · rw [crlfToLf_cons_ne c rest hc] at hm
      rcases List.mem_cons.mp hm with h' | h'
      · exact hc h'.symm
      · rw [noLoneCR_cons_ne c rest hc] at h
        exact ih h h'
  | case3 =>
    intro _ hm
    simp [crlfToLf] at hm

/--
Claim C9 (amended).  The assembled document contains no carriage return
provided every carriage return of the raw assembled text starts a CRLF pair
not preceded by another carriage return.  As stated the claim is false: the
code performs a single `replace('\r\n', '\n')` pass, so a lone `\r` (see
`c9_counterexample`) survives into the output.
-/
theorem c9_no_carriage_returns (d : MdData) (h : noLoneCR (mdRaw d) = true) :
    '\r' ∉ create_markdown_content d :=
  crlfToLf_no_cr (mdRaw d) h

/--
Claim C9 witness: a record whose description contains a CRLF pair yields a
document with no carriage returns.
-/
theorem c9_no_carriage_returns_witness :
    '\r' ∉ create_markdown_content { description := some "line1\r\nline2".toList } :=
  c9_no_carriage_returns _ (by decide)

/--
Claim C9 counterexample: a description containing a lone carriage return
(`"a\rb"`) produces an assembled document that still contains a carriage
return, refuting the claim that the output never contains one.
-/
theorem c9_counterexample :
    '\r' ∈ create_markdown_content { description := some "a\rb".toList } := by
  decide

theorem splitLines_nil : splitLines [] = [[]] := rfl

theorem splitLines_nl (B : List Char) : splitLines ('\n' :: B) = [] :: splitLines B := rfl

theorem splitLines_chunk (A B : List Char) (h : '\n' ∉ A) :
    splitLines (A ++ B) = (A ++ (splitLines B).headI) :: (splitLines B).tail := by
  induction A with
  | nil =>
    simp
    cases hB : splitLines B with
    | nil => exact absurd hB (splitLines_ne_nil B)
    | cons l ls => simp
  | cons c rest ih =>
    have hc : c ≠ '\n' := fun e => h (e ▸ List.mem_cons_self _ _)
    have hr : '\n' ∉ rest := fun hm => h (List.mem_cons_of_mem _ hm)
    rw [List.cons_append, splitLines_cons_ne c _ hc, ih hr]
    simp

/--
Claim C2.  For every record whose header values are single-line (no `\n`,
no `\r`) and whose description contains no carriage return, the lines of the
assembled document are exactly: the `---` delimiter, the 13 header keys
`company, tags, role, location, applied, date_applied, recruiter_screen,
interview, rejection, declined, comp, req, link` each emitted exactly once
in that fixed order (with `tags` carrying its `- jobpost` item line), the
closing delimiter, a blank line, the `## Description` heading, a blank
line, and the description body.
-/
theorem c2_header_schema (d : MdData)
    (hc : '\n' ∉ pyGet d.company) (hc' : '\r' ∉ pyGet d.company)
    (hr : '\n' ∉ pyGet d.role) (hr' : '\r' ∉ pyGet d.role)
    (hl : '\n' ∉ pyGet d.location) (hl' : '\r' ∉ pyGet d.location)
    (hda : '\n' ∉ pyGet d.date_applied) (hda' : '\r' ∉ pyGet d.date_applied)
    (hcp : '\n' ∉ pyGet d.comp) (hcp' : '\r' ∉ pyGet d.comp)
    (hrq : '\n' ∉ pyGet d.req) (hrq' : '\r' ∉ pyGet d.req)
    (hlk : '\n' ∉ pyGet d.link) (hlk' : '\r' ∉ pyGet d.link)
    (hde : '\r' ∉ pyGet d.description) :
    splitLines (create_markdown_content d) =
      ["---".toList, "company: ".toList ++ pyGet d.company, "tags:".toList,
       "  - jobpost".toList, "role: ".toList ++ pyGet d.role,
       "location: ".toList ++ pyGet d.location, "applied: true".toList,
       "date_applied: ".toList ++ pyGet d.date_applied,
       "recruiter_screen: ''".toList, "interview: false".toList,
       "rejection: false".toList, "declined: false".toList,
       "comp: ".toList ++ pyGet d.comp, "req: ".toList ++ pyGet d.req,
       "link: ".toList ++ pyGet d.link, "---".toList, [],
       "## Description".toList, []] ++
        splitLines (pyGet d.description) ++ [[]] := by
  have hnr : '\r' ∉ mdRaw d := by
    unfold mdRaw
    intro hm
    simp only [List.mem_append, or_assoc] at hm
    rcases hm with h|h|h|h|h|h|h|h|h|h|h|h|h|h|h|h|h <;>
      revert h <;>
      first
        | decide
        | exact hc' | exact hr' | exact hl' | exact hda'
        | exact hcp' | exact hrq' | exact hlk' | exact hde
  rw [show create_markdown_content d = mdRaw d from crlfToLf_of_no_cr _ hnr]
  have e1 : "---\ncompany: ".toList = "---".toList ++ '\n' :: "company: ".toList := by
    decide
  have e2 : "\ntags:\n  - jobpost\nrole: ".toList =
      '\n' :: ("tags:".toList ++ '\n' :: ("  - jobpost".toList ++ '\n' :: "role: ".toList)) := by
    decide
  have e3 : "\nlocation: ".toList = '\n' :: "location: ".toList := by decide
  have e4 : "\napplied: true\ndate_applied: ".toList =
      '\n' :: ("applied: true".toList ++ '\n' :: "date_applied: ".toList) := by decide
  have e5 : "\nrecruiter_screen: ''\ninterview: false\nrejection: false\ndeclined: false\ncomp: ".toList =
      '\n' :: ("recruiter_screen: ''".toList ++ '\n' :: ("interview: false".toList ++
        '\n' :: ("rejection: false".toList ++ '\n' :: ("declined: false".toList ++
          '\n' :: "comp: ".toList)))) := by decide
  have e6 : "\nreq: ".toList = '\n' :: "req: ".toList := by decide
  have e7 : "\nlink: ".toList = '\n' :: "link: ".toList := by decide
  have e8 : "\n---\n\n## Description\n\n".toList =
      '\n' :: ("---".toList ++ '\n' :: '\n' :: ("## Description".toList ++ '\n' :: ['\n'])) := by
    decide
  have e9 : "\n".toList = ['\n'] := by decide
  have n0 : '\n' ∉ "---".toList := by decide
  have n1 : '\n' ∉ "company: ".toList := by decide
  have n2 : '\n' ∉ "tags:".toList := by decide
  have n3 : '\n' ∉ "  - jobpost".toList := by decide
  have n4 : '\n' ∉ "role: ".toList := by decide
  have n5 : '\n' ∉ "location: ".toList := by decide
  have n6 : '\n' ∉ "applied: true".toList := by decide
  have n7 : '\n' ∉ "date_applied: ".toList := by decide
  have n8 : '\n' ∉ "recruiter_screen: ''".toList := by decide
  have n9 : '\n' ∉ "interview: false".toList := by decide
  have n10 : '\n' ∉ "rejection: false".toList := by decide
  have n11 : '\n' ∉ "declined: false".toList := by decide
  have n12 : '\n' ∉ "comp: ".toList := by decide
  have n13 : '\n' ∉ "req: ".toList := by decide
  have n14 : '\n' ∉ "link: ".toList := by decide
  have n15 : '\n' ∉ "## Description".toList := by decide
  rw [mdRaw, e1, e2, e3, e4, e5, e6, e7, e8, e9]
  simp only [List.append_assoc, List.cons_append, List.nil_append, List.singleton_append]
  simp only [splitLines_append, splitLines_nl, splitLines_nil, splitLines_chunk,
    splitLines_no_nl, n0, n1, n2, n3, n4, n5, n6, n7, n8, n9, n10, n11, n12, n13, n14, n15,
    hc, hr, hl, hda, hcp, hrq, hlk,
    List.headI, List.tail_cons, List.singleton_append, List.cons_append, List.nil_append,
    List.append_nil, List.append_assoc, not_false_eq_true]

/--
Claim C2 witness: the schema theorem applied to the record with every field
missing — all 13 keys are still emitted, in order, with empty values.
-/
theorem c2_header_schema_witness :
    splitLines (create_markdown_content {}) =
      ["---".toList, "company: ".toList, "tags:".toList, "  - jobpost".toList,
       "role: ".toList, "location: ".toList, "applied: true".toList,
       "date_applied: ".toList, "recruiter_screen: ''".toList,
       "interview: false".toList, "rejection: false".toList,
       "declined: false".toList, "comp: ".toList, "req: ".toList,
       "link: ".toList, "---".toList, [], "## Description".toList, [], [], []] := by
  have h := c2_header_schema {} (by decide) (by decide) (by decide) (by decide)
    (by decide) (by decide) (by decide) (by decide) (by decide) (by decide)
    (by decide) (by decide) (by decide) (by decide) (by decide)
  simpa [pyGet, splitLines_nil] using h

/-- Outcome of one model-backend call: either a raised exception (with its
message) or the response text. -/
def BackendCall : Type := Except (List Char) (List Char)

/-- `format_description_with_gemini` from `src/main.py` lines 232-275: empty
input short-circuits to `""`; a backend exception falls back to the input;
otherwise the stripped response is returned unless it is empty or shorter
than half the input, in which case the input is returned. -/
def format_description_with_gemini (plain : List Char) (outcome : BackendCall) :
    List Char :=
  if plain = [] then []
  else
    match outcome with
    | .error _ => plain
    | .ok resp =>
      let formatted := pyStrip resp
      if formatted = [] || 2 * formatted.length < plain.length then plain
      else formatted

/-- `format_description_with_local_llm` from `src/local.py` lines 240-284;
its logic is character-for-character the same as the Gemini variant. -/
def format_description_with_local_llm (plain : List Char) (outcome : BackendCall) :
    List Char :=
  if plain = [] then []
  else
    match outcome with
    | .error _ => plain
    | .ok resp =>
      let formatted := pyStrip resp
      if formatted = [] || 2 * formatted.length < plain.length then plain
      else formatted

/--
Claim C3.  For every plain description and every backend outcome, each
formatter returns either the original plain description unchanged or the
stripped model response; in particular every backend error yields the
original plain description, and the two backends implement the same
function.
-/
theorem c3_formatter_total (plain : List Char) (outcome : BackendCall) :
    (format_description_with_gemini plain outcome = plain ∨
      ∃ resp, outcome = .ok resp ∧
        format_description_with_gemini plain outcome = pyStrip resp) ∧
    (∀ e, outcome = .error e → format_description_with_gemini plain outcome = plain) ∧
    format_description_with_local_llm plain outcome =
      format_description_with_gemini plain outcome := by
  refine ⟨?_, ?_, rfl⟩
  · by_cases hp : plain = []
    · subst hp
      simp [format_description_with_gemini]
    · cases outcome with
      | error e => simp [format_description_with_gemini, hp]
      | ok resp =>
        by_cases hf : pyStrip resp = [] || 2 * (pyStrip resp).length < plain.length
        · simp [format_description_with_gemini, hp, hf]
        · right
          refine ⟨resp, rfl, ?_⟩
          simp [format_description_with_gemini, hp, hf]
  · intro e he
    subst he
    by_cases hp : plain = []
    · subst hp
      simp [format_description_with_gemini]
    · simp [format_description_with_gemini, hp]

/--
Claim C3 witness: a backend error on a concrete description leaves the
description unchanged, for both backends.
-/
theorem c3_formatter_total_witness :
    format_description_with_gemini "desc".toList (.error "boom".toList) =
        "desc".toList ∧
      format_description_with_local_llm "desc".toList (.error "boom".toList) =
        "desc".toList := by
  refine ⟨(c3_formatter_total "desc".toList (.error "boom".toList)).2.1 _ rfl, ?_⟩
  rw [(c3_formatter_total "desc".toList (.error "boom".toList)).2.2]
  exact (c3_formatter_total "desc".toList (.error "boom".toList)).2.1 _ rfl

/--
Claim C4.  For every non-empty plain description and every model response,
if the stripped response is empty or strictly shorter than half the plain
description, both formatters return the original plain description exactly.
-/
theorem c4_short_result_fallback (plain resp : List Char) (hne : plain ≠ [])
    (h : pyStrip resp = [] ∨ 2 * (pyStrip resp).length < plain.length) :
    format_description_with_gemini plain (.ok resp) = plain ∧
      format_description_with_local_llm plain (.ok resp) = plain := by
  have hcond : (pyStrip resp = [] || 2 * (pyStrip resp).length < plain.length) = true := by
    rcases h with h | h
    · simp [h]
    · simp [h]
  constructor
  · simp [format_description_with_gemini, hne, hcond]
  · simp [format_description_with_local_llm, hne, hcond]

/--
Claim C4 witness: a 10-character description with a model response that
strips to 2 characters falls back to the original description.
-/
theorem c4_short_result_fallback_witness :
    format_description_with_gemini "abcdefghij".toList (.ok " ab ".toList) =
        "abcdefghij".toList ∧
      format_description_with_local_llm "abcdefghij".toList (.ok " ab ".toList) =
        "abcdefghij".toList :=
  c4_short_result_fallback "abcdefghij".toList " ab ".toList (by decide)
    (Or.inr (by decide))

/-- JSON values as produced by Python's `json.loads`.  Numbers are kept as
their raw source text: the pipeline never computes with them, it only tests
truthiness and accesses string fields. -/
inductive JsonVal where
  | null
  | bool (b : Bool)
  | num (raw : List Char)
  | str (s : List Char)
  | arr (items : List JsonVal)
  | obj (fields : List (List Char × JsonVal))

/-- Whitespace skipped between JSON tokens (the four characters the Python
`json` module skips). -/
def jsonWS (c : Char) : Bool := c = ' ' || c = '\t' || c = '\n' || c = '\r'

def skipWS (s : List Char) : List Char := s.dropWhile jsonWS

def hexVal (c : Char) : Option Nat :=
  if '0' ≤ c ∧ c ≤ '9' then some (c.toNat - '0'.toNat)
  else if 'a' ≤ c ∧ c ≤ 'f' then some (c.toNat - 'a'.toNat + 10)
  else if 'A' ≤ c ∧ c ≤ 'F' then some (c.toNat - 'A'.toNat + 10)
  else none

/-- Parse the body of a JSON string after its opening quote, returning the
decoded text and the input remaining after the closing quote.  Unescaped
control characters are rejected (Python's default `strict=True`); `\\uXXXX`
escapes become the corresponding code point (an unpaired surrogate, which
Lean's `Char` cannot hold, degrades to `Char.ofNat`'s default — the
pipeline never constructs one). -/
def parseStringBody : List Char → Option (List Char × List Char)
  | [] => none
  | '\"' :: rest => some ([], rest)
  | '\\' :: '\"' :: rest => (parseStringBody rest).map (fun p => ('\"' :: p.1, p.2))
  | '\\' :: '\\' :: rest => (parseStringBody rest).map (fun p => ('\\' :: p.1, p.2))
  | '\\' :: '/' :: rest => (parseStringBody rest).map (fun p => ('/' :: p.1, p.2))
  | '\\' :: 'b' :: rest => (parseStringBody rest).map (fun p => ('\x08' :: p.1, p.2))
  | '\\' :: 'f' :: rest => (parseStringBody rest).map (fun p => ('\x0c' :: p.1, p.2))
  | '\\' :: 'n' :: rest => (parseStringBody rest).map (fun p => ('\n' :: p.1, p.2))
  | '\\' :: 'r' :: rest => (parseStringBody rest).map (fun p => ('\r' :: p.1, p.2))
  | '\\' :: 't' :: rest => (parseStringBody rest).map (fun p => ('\t' :: p.1, p.2))
  | '\\' :: 'u' :: a :: b :: c :: d :: rest =>
    match hexVal a, hexVal b, hexVal c, hexVal d with
    | some ha, some hb, some hc, some hd =>
      (parseStringBody rest).map
        (fun p => (Char.ofNat (((ha * 16 + hb) * 16 + hc) * 16 + hd) :: p.1, p.2))
    | _, _, _, _ => none
  | '\\' :: _ => none
  | c :: rest =>
    if c.toNat < 32 then none
    else (parseStringBody rest).map (fun p => (c :: p.1, p.2))

def isJsonDigit (c : Char) : Bool := '0' ≤ c && c ≤ '9'

/-- Parse a JSON number (`-? int frac? exp?`), returning its raw text and
the remaining input. -/
def parseNumber (s : List Char) : Option (List Char × List Char) :=
  let (sign, s1) :=
    match s with
    | '-' :: r => (['-'], r)
    | _ => (([] : List Char), s)
  match s1 with
  | [] => none
  | c :: r1 =>
    if !isJsonDigit c then none
    else
      let (intPart, rest1) :=
        if c = '0' then (['0'], r1)
        else (c :: r1.takeWhile isJsonDigit, r1.dropWhile isJsonDigit)
      let (fracPart, rest2) :=
        match rest1 with
        | '.' :: r2 =>
          let fd := r2.takeWhile isJsonDigit
          if fd = [] then (none, rest1)
          else (some ('.' :: fd), r2.dropWhile isJsonDigit)
        | _ => (none, rest1)
      match fracPart, rest2 with
      | none, '.' :: _ => none
      | fp, rest2 =>
        let (expPart, rest3) :=
          match rest2 with
          | e :: r3 =>
            if e = 'e' || e = 'E' then
              let (esign, r4) :=
                match r3 with
                | '+' :: r4 => (['+'], r4)
                | '-' :: r4 => (['-'], r4)
                | _ => (([] : List Char), r3)
              let ed := r4.takeWhile isJsonDigit
              if ed = [] then (none, rest2)
              else (some (e :: (esign ++ ed)), r4.dropWhile isJsonDigit)
            else (none, rest2)
          | _ => (none, rest2)
        match expPart, rest3 with
        | none, e :: _ =>
          if e = 'e' || e = 'E' then none
          else some (sign ++ intPart ++ fp.getD [] ++ [], rest3)
        | ep, rest3 => some (sign ++ intPart ++ fp.getD [] ++ ep.getD [], rest3)

mutual

/-- Recursive-descent JSON value parser (models `json.loads`' grammar,
including the `NaN`/`Infinity` constants Python accepts by default).  The
fuel argument only bounds recursion depth; `jsonLoads` supplies enough for
any input. -/
def parseVal : Nat → List Char → Option (JsonVal × List Char)
  | 0, _ => none
  | fuel + 1, s =>
    let s := skipWS s
    match s with
    | '\"' :: rest => (parseStringBody rest).map (fun p => (.str p.1, p.2))
    | '\x7b' :: rest => parseObjBody fuel rest
    | '[' :: rest => parseArrBody fuel rest
    | _ =>
      if "true".toList.isPrefixOf s then some (.bool true, s.drop 4)
      else if "false".toList.isPrefixOf s then some (.bool false, s.drop 5)
      else if "null".toList.isPrefixOf s then some (.null, s.drop 4)
      else if "NaN".toList.isPrefixOf s then some (.num "NaN".toList, s.drop 3)
      else if "Infinity".toList.isPrefixOf s then some (.num "Infinity".toList, s.drop 8)
      else if "-Infinity".toList.isPrefixOf s then some (.num "-Infinity".toList, s.drop 9)
      else (parseNumber s).map (fun p => (.num p.1, p.2))

def parseObjBody : Nat → List Char → Option (JsonVal × List Char)
  | 0, _ => none
  | fuel + 1, s =>
    match skipWS s with
    | '\x7d' :: rest => some (.obj [], rest)
    | s1 => parseMembers fuel [] s1

def parseMembers : Nat → List (List Char × JsonVal) → List Char →
    Option (JsonVal × List Char)
  | 0, _, _ => none
  | fuel + 1, acc, s =>
    match skipWS s with
    | '\"' :: rest =>
      match parseStringBody rest with
      | none => none
      | some (key, r1) =>
        match skipWS r1 with
        | ':' :: r2 =>
          match parseVal fuel r2 with
          | none => none
          | some (v, r3) =>
            match skipWS r3 with
            | ',' :: r4 => parseMembers fuel (acc ++ [(key, v)]) r4
            | '\x7d' :: r4 => some (.obj (acc ++ [(key, v)]), r4)
            | _ => none
        | _ => none
    | _ => none

def parseArrBody : Nat → List Char → Option (JsonVal × List Char)
  | 0, _ => none
  | fuel + 1, s =>
    match skipWS s with
    | ']' :: rest => some (.arr [], rest)
    | s1 => parseItems fuel [] s1

def parseItems : Nat → List JsonVal → List Char → Option (JsonVal × List Char)
  | 0, _, _ => none
  | fuel + 1, acc, s =>
    match parseVal fuel s with
    | none => none
    | some (v, r1) =>
      match skipWS r1 with
      | ',' :: r2 => parseItems fuel (acc ++ [v]) r2
      | ']' :: r2 => some (.arr (acc ++ [v]), r2)
      | _ => none

end

/-- Python `json.loads`: parse one JSON value and require only trailing
whitespace after it. -/
def jsonLoads (s : List Char) : Option JsonVal :=
  match parseVal (3 * s.length + 8) s with
  | some (v, rest) => if skipWS rest = [] then some v else none
  | none => none

/-- `extract_job_data_with_gemini` from `src/main.py` lines 168-228: empty
text, a raised backend error, or a `json.JSONDecodeError` all yield `None`;
otherwise the parsed JSON value is returned.  Note the response text is fed
to `json.loads` directly — no code-fence stripping. -/
def extract_job_data_with_gemini (text : List Char) (outcome : BackendCall) :
    Option JsonVal :=
  if text = [] then none
  else
    match outcome with
    | .error _ => none
    | .ok resp => jsonLoads resp

/-- The backtick character (code point 96). -/
def btChar : Char := Char.ofNat 96

/-- The character set of Python's `lstrip('```json')`: `lstrip` with a
string argument strips any leading characters drawn from that set. -/
def fenceChars : List Char := btChar :: "json".toList

/-- Python `s.lstrip(set)`. -/
def pyLstripSet (set : List Char) (l : List Char) : List Char :=
  l.dropWhile (fun c => set.contains c)

/-- Python `s.rstrip(set)`. -/
def pyRstripSet (set : List Char) (l : List Char) : List Char :=
  (l.reverse.dropWhile (fun c => set.contains c)).reverse

/-- The response clean-up of `src/local.py` line 220:
`response_content.strip().lstrip('```json').rstrip('```').strip()`. -/
def local_json_cleanup (resp : List Char) : List Char :=
  pyStrip (pyRstripSet [btChar] (pyLstripSet fenceChars (pyStrip resp)))

/-- `extract_job_data_with_local_llm` from `src/local.py` lines 166-236:
like the Gemini variant, but the response is stripped of code-fence
wrapping before `json.loads`, and an empty cleaned response is rejected. -/
def extract_job_data_with_local_llm (text : List Char) (outcome : BackendCall) :
    Option JsonVal :=
  if text = [] then none
  else
    match outcome with
    | .error _ => none
    | .ok resp =>
      let js := local_json_cleanup resp
      if js = [] then none else jsonLoads js

theorem dropWhile_append_all (p : Char → Bool) (A B : List Char)
    (hA : ∀ a ∈ A, p a = true) : (A ++ B).dropWhile p = B.dropWhile p := by
  induction A with
  | nil => rfl
  | cons a rest ih =>
    rw [List.cons_append, List.dropWhile_cons]
    simp only [hA a (List.mem_cons_self _ _), if_true]
    exact ih (fun x hx => hA x (List.mem_cons_of_mem _ hx))

theorem dropWhile_cons_false (p : Char → Bool) (c : Char) (l : List Char)
    (h : p c = false) : (c :: l).dropWhile p = c :: l := by
  rw [List.dropWhile_cons]
  simp [h]


/-- The local clean-up removes a ```` ```json ```` fence wrapped around a
JSON object body. -/
theorem local_json_cleanup_fence (core : List Char)
    (hh : core.head? = some '\x7b') (hl : core.getLast? = some '\x7d') :
    local_json_cleanup
      (("```json".toList ++ ['\n']) ++ (core ++ ('\n' :: "```".toList))) = core := by
  unfold local_json_cleanup
  have step1 : pyStrip (("```json".toList ++ ['\n']) ++
      (core ++ ('\n' :: "```".toList))) =
      ("```json".toList ++ ['\n']) ++ (core ++ ('\n' :: "```".toList)) := by
    apply pyStrip_eq_self
    · intro c hc
      rw [List.head?_append] at hc
      simp at hc
      rw [← hc]
      decide
    · intro c hc
      rw [List.getLast?_append, List.getLast?_append] at hc
      simp at hc
      rw [← hc]
      decide
  rw [step1]
  have step2 : pyLstripSet fenceChars (("```json".toList ++ ['\n']) ++
      (core ++ ('\n' :: "```".toList))) =
      '\n' :: (core ++ ('\n' :: "```".toList)) := by
    unfold pyLstripSet
    rw [List.append_assoc, dropWhile_append_all _ _ _ (by decide)]
    rw [List.cons_append]
    exact dropWhile_cons_false _ _ _ (by decide)
  rw [step2]
  have step3 : pyRstripSet [btChar] ('\n' :: (core ++ ('\n' :: "```".toList))) =
      '\n' :: (core ++ ['\n']) := by
    unfold pyRstripSet
    have hrev : ('\n' :: (core ++ ('\n' :: "```".toList))).reverse =
        "```".toList.reverse ++ ('\n' :: (core.reverse ++ ['\n'])) := by
      simp
    rw [hrev, dropWhile_append_all _ _ _ (by decide),
      dropWhile_cons_false _ _ _ (by decide)]
    simp
  rw [step3]
  obtain ⟨t, rfl⟩ : ∃ t, core = '\x7b' :: t := by
    cases core with
    | nil => simp at hh
    | cons c t =>
      simp at hh
      exact ⟨t, by rw [hh]⟩
  unfold pyStrip striplWS
  rw [List.cons_append]
  rw [List.dropWhile_cons, if_pos (by decide), List.dropWhile_cons, if_neg (by decide)]
  unfold striprWS
  have hrev2 : ('\x7b' :: (t ++ ['\n'])).reverse = '\n' :: (t.reverse ++ ['\x7b']) := by
    simp
  rw [hrev2, List.dropWhile_cons, if_pos (by decide)]
  have hstop : List.dropWhile isPySpace (t.reverse ++ ['\x7b']) =
      t.reverse ++ ['\x7b'] := by
    apply dropWhile_eq_self_of_head
    intro c hc
    rw [List.head?_append] at hc
    cases htr : t.reverse.head? with
    | none =>
      rw [htr] at hc
      simp at hc
      rw [← hc]
      decide
    | some d =>
      rw [htr] at hc
      simp at hc
      rw [List.head?_reverse] at htr
      rw [List.getLast?_cons, htr] at hl
      simp at hl
      rw [← hc, hl]
      decide
  rw [hstop]
  simp

/--
Claim C7 (amended).  For both backends a field-extraction parse failure or
backend error is caught and yields the failure value `none` rather than an
unhandled exception, and the local backend strips optional ```` ```json ````
code-fence wrapping before parsing.  As stated the claim is false: the
remote backend passes the response text to `json.loads` unchanged with no
fence stripping — see `c7_counterexample`.
-/
theorem c7_parse_failure_contract :
    (∀ (text e : List Char),
        extract_job_data_with_gemini text (.error e) = none ∧
          extract_job_data_with_local_llm text (.error e) = none) ∧
    (∀ (text resp : List Char), jsonLoads resp = none →
        extract_job_data_with_gemini text (.ok resp) = none) ∧
    (∀ (text resp : List Char), jsonLoads (local_json_cleanup resp) = none →
        extract_job_data_with_local_llm text (.ok resp) = none) ∧
    (∀ (core : List Char), core.head? = some '\x7b' → core.getLast? = some '\x7d' →
        ∀ (text : List Char), text ≠ [] →
          extract_job_data_with_local_llm text
              (.ok (("```json".toList ++ ['\n']) ++ (core ++ ('\n' :: "```".toList)))) =
            jsonLoads core) := by
  refine ⟨?_, ?_, ?_, ?_⟩
  · intro text e
    constructor
    · unfold extract_job_data_with_gemini
      by_cases ht : text = [] <;> simp [ht]
    · unfold extract_job_data_with_local_llm
      by_cases ht : text = [] <;> simp [ht]
  · intro text resp h
    unfold extract_job_data_with_gemini
    by_cases ht : text = [] <;> simp [ht, h]
  · intro text resp h
    unfold extract_job_data_with_local_llm
    by_cases ht : text = []
    · simp [ht]
    · simp only [ht, if_neg, if_false]
      simp [h]
  · intro core hh hl text ht
    have hcne : core ≠ [] := by
      intro e
      rw [e] at hh
      simp at hh
    unfold extract_job_data_with_local_llm
    rw [if_neg ht]
    simp only [local_json_cleanup_fence core hh hl]
    simp [hcne]

/--
Claim C7 witness: the contract applied at concrete inputs — a backend error
yields `none`, and the local backend parses a concretely fenced object by
first removing the fence.
-/
theorem c7_parse_failure_contract_witness :
    extract_job_data_with_gemini "x".toList (.error "rate limit".toList) = none ∧
      extract_job_data_with_local_llm "x".toList
          (.ok (("```json".toList ++ ['\n']) ++
            ("\x7b\"company\": \"Acme\"\x7d".toList ++ ('\n' :: "```".toList)))) =
        jsonLoads "\x7b\"company\": \"Acme\"\x7d".toList := by
  refine ⟨(c7_parse_failure_contract.1 "x".toList "rate limit".toList).1, ?_⟩
  exact c7_parse_failure_contract.2.2.2 _ (by decide) (by decide) _ (by decide)

/--
Claim C7 counterexample: on the same fenced response the remote backend's
parser fails (returns `none`) while the local backend succeeds, so it is
false that both backends strip code-fence wrapping before parsing — the
remote one does not.
-/
theorem c7_counterexample :
    extract_job_data_with_gemini "text".toList
        (.ok "```json\n\x7b\"company\": \"Acme\"\x7d\n```".toList) = none ∧
      extract_job_data_with_local_llm "text".toList
        (.ok "```json\n\x7b\"company\": \"Acme\"\x7d\n```".toList) =
        some (JsonVal.obj [("company".toList, JsonVal.str "Acme".toList)]) :=
  ⟨rfl, rfl⟩


/-- Truthiness of a raw JSON number under Python (`0`, `0.0`, `-0e5` are
falsy; any number with a nonzero mantissa digit, `NaN` and `Infinity` are
truthy). -/
def numTruthy (raw : List Char) : Bool :=
  (raw.takeWhile (fun c => !(c = 'e' || c = 'E'))).any
    (fun c => ('1' ≤ c && c ≤ '9') || c = 'N' || c = 'I')

/-- Python truthiness of a parsed JSON value (`if extracted_data:`). -/
def pyTruthy : JsonVal → Bool
  | .null => false
  | .bool b => b
  | .num raw => numTruthy raw
  | .str s => !s.isEmpty
  | .arr items => !items.isEmpty
  | .obj fields => !fields.isEmpty

/-- Python `dict` lookup for an object produced by `json.loads` (a later
duplicate key overwrites an earlier one). -/
def objLookup (fields : List (List Char × JsonVal)) (key : List Char) :
    Option JsonVal :=
  fields.foldl (fun acc kv => if kv.1 = key then some kv.2 else acc) none

/-- A Python exception `main` does not catch: `.get` on a non-dict result,
or `.strip()` on a non-string field value. -/
inductive PyCrash where
  | attributeError

/-- Models `extracted_data.get(key, '')` followed by a string operation in
`main`: the string value (or `''` when the key is absent), crashing when
`extracted_data` is not a dict or the value is not a string. -/
def getStrField (v : JsonVal) (key : List Char) : Except PyCrash (List Char) :=
  match v with
  | .obj fields =>
    match objLookup fields key with
    | none => .ok []
    | some (.str s) => .ok s
    | some _ => .error .attributeError
  | _ => .error .attributeError

/-- Lines 301-306 of `src/main.py`: the final description is the formatted
description when a plain description was extracted, otherwise empty. -/
def finalDescription (plainDesc : List Char) (fmtOut : BackendCall) : List Char :=
  if plainDesc ≠ [] then format_description_with_gemini plainDesc fmtOut else []

/-- Filename derivation of `main` (`src/main.py` lines 339-349, identical in
`src/local.py`): the four-case base name, with `.md` already part of the
base name that is subsequently sanitized. -/
def deriveBaseFilename (company role date : List Char) : List Char :=
  if company = [] ∧ role = [] then "Job Posting ".toList ++ date ++ ".md".toList
  else if company = [] then "Unknown Company - ".toList ++ role ++ ".md".toList
  else if role = [] then company ++ " - Unknown Role.md".toList
  else company ++ " - ".toList ++ role ++ ".md".toList

/-- Steps 4-5 of `main` (`src/main.py` lines 298-360, identical in
`src/local.py` lines 307-369): compute the final description, and, when
extraction produced a truthy value, build the final data dictionary (all
fields stripped), derive and sanitize the filename, and assemble the
document.  `.ok none` means no file is written; `.error` models the
uncaught exception Python raises on non-dict/non-string extraction
results. -/
def processExtracted (extracted : Option JsonVal) (fmtOut : BackendCall)
    (url today : List Char) : Except PyCrash (Option (List Char × List Char)) :=
  match extracted with
  | none => .ok none
  | some v =>
    if pyTruthy v then do
      let rawDesc ← getStrField v "description".toList
      let finalDesc := finalDescription (pyStrip rawDesc) fmtOut
      let c ← getStrField v "company".toList
      let r ← getStrField v "role".toList
      let lo ← getStrField v "location".toList
      let cp ← getStrField v "comp".toList
      let rq ← getStrField v "req".toList
      let finalData : MdData :=
        { company := some (pyStrip c), role := some (pyStrip r),
          location := some (pyStrip lo), comp := some (pyStrip cp),
          req := some (pyStrip rq), description := some (pyStrip finalDesc),
          date_applied := some today, link := some url }
      let baseFilename := deriveBaseFilename (pyStrip c) (pyStrip r) today
      pure (some (sanitize_filename baseFilename, create_markdown_content finalData))
    else pure none

/-- Steps 2-5 of `main` given the extracted plain text: empty or missing
text skips the extraction call, and the save stage runs only on a truthy
extraction result. -/
def main_from_plain_text (plainText : Option (List Char))
    (exOut fmtOut : BackendCall) (url today : List Char) :
    Except PyCrash (Option (List Char × List Char)) :=
  let extracted :=
    match plainText with
    | none => none
    | some t => if t = [] then none else extract_job_data_with_gemini t exOut
  processExtracted extracted fmtOut url today


/--
Claim C5.  Whenever field extraction fails — the backend call raises, or
the model response is not parseable JSON — the extraction function returns
the failure value `none`, and the save stage (guarded on extraction
success) is never reached: the pipeline ends with no file written.
-/
theorem c5_extraction_failure_aborts (plainText : List Char)
    (exOut fmtOut : BackendCall) (url today : List Char)
    (h : (∃ e, exOut = .error e) ∨
      (∃ resp, exOut = .ok resp ∧ jsonLoads resp = none)) :
    extract_job_data_with_gemini plainText exOut = none ∧
      main_from_plain_text (some plainText) exOut fmtOut url today = .ok none := by
  have hex : extract_job_data_with_gemini plainText exOut = none := by
    unfold extract_job_data_with_gemini
    rcases h with ⟨e, rfl⟩ | ⟨resp, rfl, hj⟩
    · by_cases ht : plainText = [] <;> simp [ht]
    · by_cases ht : plainText = [] <;> simp [ht, hj]
  refine ⟨hex, ?_⟩
  unfold main_from_plain_text
  by_cases ht : plainText = []
  · simp [ht, processExtracted]
  · simp [ht, hex, processExtracted]

/--
Claim C5 witness: a concrete backend failure yields `none` from the
extractor and no file from the pipeline.
-/
theorem c5_extraction_failure_aborts_witness :
    extract_job_data_with_gemini "job text".toList (.error "boom".toList) = none ∧
      main_from_plain_text (some "job text".toList) (.error "boom".toList)
        (.ok "ignored".toList) "url".toList "2026-10-12".toList = .ok none :=
  c5_extraction_failure_aborts "job text".toList (.error "boom".toList)
    (.ok "ignored".toList) "url".toList "2026-10-12".toList (Or.inl ⟨_, rfl⟩)

theorem pyStrip_idem (l : List Char) : pyStrip (pyStrip l) = pyStrip l :=
  pyStrip_eq_self _ (fun c hc => pyStrip_head _ c hc)
    (fun c hc => pyStrip_getLast _ c hc)

/--
Claim C10.  Before document assembly and filename derivation every
extracted string field and the final description are stripped of leading
and trailing whitespace, the filename case analysis runs on the stripped
values (a whitespace-only company is treated as unknown), and no header
value carries leading or trailing whitespace (stripping is idempotent).
-/
theorem c10_fields_stripped (co ro lo cp rq de : List Char)
    (fmtOut : BackendCall) (url today : List Char) :
    processExtracted
        (some (JsonVal.obj
          [("company".toList, .str co), ("role".toList, .str ro),
           ("location".toList, .str lo), ("comp".toList, .str cp),
           ("req".toList, .str rq), ("description".toList, .str de)]))
        fmtOut url today =
      .ok (some
        (sanitize_filename (deriveBaseFilename (pyStrip co) (pyStrip ro) today),
         create_markdown_content
           { company := some (pyStrip co), role := some (pyStrip ro),
             location := some (pyStrip lo), comp := some (pyStrip cp),
             req := some (pyStrip rq),
             description := some (pyStrip (finalDescription (pyStrip de) fmtOut)),
             date_applied := some today, link := some url })) ∧
      (pyStrip co = [] → pyStrip ro ≠ [] →
        deriveBaseFilename (pyStrip co) (pyStrip ro) today =
          "Unknown Company - ".toList ++ pyStrip ro ++ ".md".toList) ∧
      (∀ f ∈ [pyStrip co, pyStrip ro, pyStrip lo, pyStrip cp, pyStrip rq,
          pyStrip (finalDescription (pyStrip de) fmtOut)], pyStrip f = f) := by
  refine ⟨rfl, ?_, ?_⟩
  · intro hc hr
    unfold deriveBaseFilename
    rw [if_neg (by simp [hr]), if_pos hc]
  · intro f hf
    simp only [List.mem_cons, List.mem_singleton] at hf
    rcases hf with rfl | rfl | rfl | rfl | rfl | rfl | hf
    · exact pyStrip_idem co
    · exact pyStrip_idem ro
    · exact pyStrip_idem lo
    · exact pyStrip_idem cp
    · exact pyStrip_idem rq
    · exact pyStrip_idem _
    · simp at hf


/--
Claim C10 witness: a whitespace-only company and a padded role are stripped
before the filename case analysis, so the filename takes the
"Unknown Company" branch with the stripped role.
-/
theorem c10_fields_stripped_witness :
    processExtracted
        (some (JsonVal.obj
          [("company".toList, .str "   ".toList), ("role".toList, .str " Dev ".toList),
           ("location".toList, .str " NY ".toList), ("comp".toList, .str "".toList),
           ("req".toList, .str "".toList), ("description".toList, .str "".toList)]))
        (.error "down".toList) "url".toList "2026-10-12".toList =
      .ok (some
        (sanitize_filename (deriveBaseFilename [] "Dev".toList "2026-10-12".toList),
         create_markdown_content
           { company := some [], role := some "Dev".toList,
             location := some "NY".toList, comp := some [], req := some [],
             description := some [], date_applied := some "2026-10-12".toList,
             link := some "url".toList })) ∧
      deriveBaseFilename [] "Dev".toList "2026-10-12".toList =
        "Unknown Company - ".toList ++ "Dev".toList ++ ".md".toList := by
  have h := c10_fields_stripped "   ".toList " Dev ".toList " NY ".toList
    "".toList "".toList "".toList (.error "down".toList) "url".toList
    "2026-10-12".toList
  have e1 : pyStrip "   ".toList = [] := by decide
  have e2 : pyStrip " Dev ".toList = "Dev".toList := by decide
  have e3 : pyStrip " NY ".toList = "NY".toList := by decide
  have e4 : pyStrip "".toList = [] := by decide
  have e5 : pyStrip (finalDescription (pyStrip "".toList) (.error "down".toList)) = [] := by
    decide
  constructor
  · have h1 := h.1
    rw [e1, e2, e3, e5, e4] at h1
    exact h1
  · have h2 := h.2.1 e1 (by rw [e2]; decide)
    rw [e1, e2] at h2
    exact h2



instance noWSPair_decidable : DecidableRel noWSPair := fun a b =>
  inferInstanceAs (Decidable (¬(isPySpace a = true ∧ isPySpace b = true)))

/--
Claim C6 (amended).  The saved filename is `sanitize_filename` applied to
the four-case base name with `".md"` appended before sanitization, so
truncation to 150 characters can cut into or remove the extension — see
`c6_counterexample`.  For a fully-populated extraction whose company and
role are already in sanitized shape and short enough, the filename is
exactly `"{Company} - {Role}.md"`.
-/
theorem c6_filename_rule (company role date : List Char)
    (hcne : company ≠ []) (hrne : role ≠ [])
    (hcil : ∀ ch ∈ company, isIllegal ch = false)
    (hril : ∀ ch ∈ role, isIllegal ch = false)
    (hcsp : ∀ ch ∈ company, isPySpace ch = true → ch = ' ')
    (hrsp : ∀ ch ∈ role, isPySpace ch = true → ch = ' ')
    (hcch : List.Chain' noWSPair company)
    (hrch : List.Chain' noWSPair role)
    (hchd : ∀ ch, company.head? = some ch → isPySpace ch = false)
    (hclast : ∀ ch, company.getLast? = some ch → isPySpace ch = false)
    (hrhd : ∀ ch, role.head? = some ch → isPySpace ch = false)
    (hlen : company.length + role.length + 6 ≤ 150) :
    deriveBaseFilename company role date =
        company ++ " - ".toList ++ role ++ ".md".toList ∧
      sanitize_filename (deriveBaseFilename company role date) =
        company ++ " - ".toList ++ role ++ ".md".toList := by
  have hbase : deriveBaseFilename company role date =
      company ++ " - ".toList ++ role ++ ".md".toList := by
    unfold deriveBaseFilename
    rw [if_neg (by simp [hcne]), if_neg hcne, if_neg hrne]
  refine ⟨hbase, ?_⟩
  rw [hbase]
  have hassoc : company ++ " - ".toList ++ role ++ ".md".toList =
      company ++ (" - ".toList ++ (role ++ ".md".toList)) := by
    simp [List.append_assoc]
  rw [hassoc]
  have hlitil : ∀ ch ∈ " - ".toList, isIllegal ch = false := by decide
  have hlitil2 : ∀ ch ∈ ".md".toList, isIllegal ch = false := by decide
  have hlitsp : ∀ ch ∈ " - ".toList, isPySpace ch = true → ch = ' ' := by decide
  have hlitsp2 : ∀ ch ∈ ".md".toList, isPySpace ch = true → ch = ' ' := by decide
  apply sanitize_id
  · simp [hcne]
  · simp only [List.length_append]
    have h1 : (" - ".toList).length = 3 := by decide
    have h2 : (".md".toList).length = 3 := by decide
    omega
  · intro c hc
    simp only [List.mem_append] at hc
    rcases hc with h | h | h | h
    · exact hcil c h
    · exact hlitil c h
    · exact hril c h
    · exact hlitil2 c h
  · intro c hc hws
    simp only [List.mem_append] at hc
    rcases hc with h | h | h | h
    · exact hcsp c h hws
    · exact hlitsp c h hws
    · exact hrsp c h hws
    · exact hlitsp2 c h hws
  · have hch1 : List.Chain' noWSPair " - ".toList := by
      rw [show " - ".toList = [' ', '-', ' '] from rfl]
      exact List.chain'_cons.mpr ⟨by decide,
        List.chain'_cons.mpr ⟨by decide, List.chain'_singleton _⟩⟩
    have hch2 : List.Chain' noWSPair ".md".toList := by
      rw [show ".md".toList = ['.', 'm', 'd'] from rfl]
      exact List.chain'_cons.mpr ⟨by decide,
        List.chain'_cons.mpr ⟨by decide, List.chain'_singleton _⟩⟩
    apply List.chain'_append.mpr
    refine ⟨hcch, ?_, ?_⟩
    · apply List.chain'_append.mpr
      refine ⟨hch1, ?_, ?_⟩
      · apply List.chain'_append.mpr
        refine ⟨hrch, hch2, ?_⟩
        intro x hx y hy
        have hmd : (".md".toList).head? = some '.' := by decide
        rw [hmd] at hy
        simp at hy
        subst hy
        intro hcon
        exact absurd hcon.2 (by decide)
      · intro x hx y hy
        have hsp : (" - ".toList).getLast? = some ' ' := by decide
        rw [hsp] at hx
        simp at hx
        subst hx
        rw [List.head?_append] at hy
        cases hro : role.head? with
        | none =>
          rw [hro] at hy
          have hmd : (".md".toList).head? = some '.' := by decide
          rw [hmd] at hy
          simp at hy
          subst hy
          intro hcon
          exact absurd hcon.2 (by decide)
        | some d =>
          rw [hro] at hy
          simp at hy
          subst hy
          intro hcon
          have hd := hrhd d hro
          rw [hd] at hcon
          simp at hcon
    · intro x hx y hy
      have hsp2 : (" - ".toList).head? = some ' ' := by decide
      rw [List.head?_append, hsp2] at hy
      simp at hy
      subst hy
      rw [Option.mem_def] at hx
      intro hcon
      have hx' := hclast x hx
      rw [hx'] at hcon
      simp at hcon
  · intro c hc
    rw [List.head?_append] at hc
    cases hco : company.head? with
    | none =>
      rw [List.head?_eq_none_iff] at hco
      exact absurd hco hcne
    | some d =>
      rw [hco] at hc
      simp at hc
      subst hc
      exact hchd _ hco
  · intro c hc
    rw [List.getLast?_append, List.getLast?_append, List.getLast?_append] at hc
    have hmd : (".md".toList).getLast? = some 'd' := by decide
    rw [hmd] at hc
    simp at hc
    rw [← hc]
    decide


/-- Decidable check used to discharge `Chain' noWSPair` obligations on
concrete strings. -/
def noAdjWS : List Char → Bool
  | [] => true
  | [_] => true
  | a :: b :: rest => !(isPySpace a && isPySpace b) && noAdjWS (b :: rest)

theorem chain'_of_noAdjWS : ∀ (l : List Char), noAdjWS l = true →
    List.Chain' noWSPair l := by
  intro l
  induction l with
  | nil => intro _; exact List.chain'_nil
  | cons a tail ih =>
    intro h
    cases tail with
    | nil => exact List.chain'_singleton _
    | cons b rest =>
      simp only [noAdjWS, Bool.and_eq_true] at h
      refine List.chain'_cons.mpr ⟨?_, ih h.2⟩
      intro hcon
      rw [hcon.1, hcon.2] at h
      simp at h

/-- Decidable check for a non-whitespace first character. -/
def headNotWSB : List Char → Bool
  | [] => true
  | c :: _ => !isPySpace c

theorem head_not_ws_of (l : List Char) (h : headNotWSB l = true) :
    ∀ ch, l.head? = some ch → isPySpace ch = false := by
  cases l with
  | nil => intro ch hc; simp at hc
  | cons c t =>
    intro ch hc
    simp at hc
    subst hc
    simpa [headNotWSB] using h

theorem last_not_ws_of (l : List Char) (h : headNotWSB l.reverse = true) :
    ∀ ch, l.getLast? = some ch → isPySpace ch = false := by
  intro ch hc
  apply head_not_ws_of l.reverse h
  rw [List.head?_reverse]
  exact hc

/--
Claim C6 witness: the clean-name case of the filename rule at a concrete
fully-populated extraction — company `Acme`, role `Senior Engineer` — gives
exactly `Acme - Senior Engineer.md`.
-/
theorem c6_filename_rule_witness :
    deriveBaseFilename "Acme".toList "Senior Engineer".toList "2026-10-12".toList =
        "Acme".toList ++ " - ".toList ++ "Senior Engineer".toList ++ ".md".toList ∧
      sanitize_filename (deriveBaseFilename "Acme".toList "Senior Engineer".toList
          "2026-10-12".toList) =
        "Acme".toList ++ " - ".toList ++ "Senior Engineer".toList ++ ".md".toList :=
  c6_filename_rule "Acme".toList "Senior Engineer".toList "2026-10-12".toList
    (by decide) (by decide) (by decide) (by decide) (by decide) (by decide)
    (chain'_of_noAdjWS _ (by decide)) (chain'_of_noAdjWS _ (by decide))
    (head_not_ws_of _ (by decide)) (last_not_ws_of _ (by decide))
    (head_not_ws_of _ (by decide)) (by decide)

/--
Claim C6 counterexample: for a 200-character company and role `b`, the
code's filename (sanitization applied after appending `.md`) is 150 `a`s —
it does not carry the `.md` extension the claim promises, because the
truncation to 150 characters cuts it off.
-/
theorem c6_counterexample :
    sanitize_filename (deriveBaseFilename (List.replicate 200 'a') ['b']
        "2026-10-12".toList) = List.replicate 150 'a' ∧
      ".md".toList.isSuffixOf
        (sanitize_filename (deriveBaseFilename (List.replicate 200 'a') ['b']
          "2026-10-12".toList)) = false := by
  constructor
  · decide
  · decide


/-- The CSS selector forms used by `extract_plain_description_text`: id
(`#x`), class (`.x`), tag (`article`), and the `[role="main"]` attribute
selector. -/
inductive Selector where
  | byId (s : List Char)
  | byClass (s : List Char)
  | byTag (s : List Char)
  | byRoleAttr (s : List Char)

mutual

/-- A parsed HTML element tree: the attributes the selectors inspect, plus
children; or a text node. -/
inductive HtmlNode where
  | elem (tag : List Char) (idAttr : Option (List Char))
      (classes : List (List Char)) (roleAttr : Option (List Char))
      (children : HtmlForest)
  | text (content : List Char)

/-- A sequence of sibling HTML nodes (the children of an element, or the
roots of the parsed document). -/
inductive HtmlForest where
  | nil
  | cons (n : HtmlNode) (f : HtmlForest)

end

/-- Does one element's own data match a selector? -/
def selMatches (sel : Selector) (tag : List Char) (idAttr : Option (List Char))
    (classes : List (List Char)) (roleAttr : Option (List Char)) : Bool :=
  match sel with
  | .byId s => idAttr == some s
  | .byClass s => classes.contains s
  | .byTag s => tag == s
  | .byRoleAttr s => roleAttr == some s

mutual

/-- `soup.select_one(selector)` restricted to one subtree: the first
matching element in document (pre-)order. -/
def selectOneNode (sel : Selector) : HtmlNode → Option HtmlNode
  | .text _ => none
  | .elem tag idAttr classes roleAttr children =>
    if selMatches sel tag idAttr classes roleAttr then
      some (.elem tag idAttr classes roleAttr children)
    else selectOneForest sel children

def selectOneForest (sel : Selector) : HtmlForest → Option HtmlNode
  | .nil => none
  | .cons n f =>
    match selectOneNode sel n with
    | some e => some e
    | none => selectOneForest sel f

end

mutual

/-- `soup.body`: the first `body` element in document order. -/
def findBodyNode : HtmlNode → Option HtmlNode
  | .text _ => none
  | .elem tag idAttr classes roleAttr children =>
    if tag == "body".toList then some (.elem tag idAttr classes roleAttr children)
    else findBodyForest children

def findBodyForest : HtmlForest → Option HtmlNode
  | .nil => none
  | .cons n f =>
    match findBodyNode n with
    | some e => some e
    | none => findBodyForest f

end

def isStripTag (tag : List Char) : Bool :=
  tag == "script".toList || tag == "style".toList

mutual

/-- The `element.decompose()` loop: remove every descendant `script` and
`style` element before text extraction. -/
def stripScripts : HtmlNode → HtmlNode
  | .text s => .text s
  | .elem tag idAttr classes roleAttr children =>
    .elem tag idAttr classes roleAttr (stripScriptsForest children)

def stripScriptsForest : HtmlForest → HtmlForest
  | .nil => .nil
  | .cons n f =>
    match n with
    | .elem tag _ _ _ _ =>
      if isStripTag tag then stripScriptsForest f
      else .cons (stripScripts n) (stripScriptsForest f)
    | .text s => .cons (.text s) (stripScriptsForest f)

end

mutual

/-- All text-node contents of a subtree, in document order. -/
def collectTexts : HtmlNode → List (List Char)
  | .text s => [s]
  | .elem _ _ _ _ children => collectTextsForest children

def collectTextsForest : HtmlForest → List (List Char)
  | .nil => []
  | .cons n f => collectTexts n ++ collectTextsForest f

end

/-- `element.get_text(separator='\n', strip=True)`: join the stripped,
non-empty text-node contents with newlines. -/
def getTextStrip (n : HtmlNode) : List Char :=
  List.intercalate ['\n']
    (((collectTexts n).map pyStrip).filter (fun s => !s.isEmpty))

/-- The whitespace-run suffix after the last newline of a whitespace run. -/
def suffixAfterLastNl (w : List Char) : List Char :=
  (w.reverse.takeWhile (fun c => !(c = '\n'))).reverse

/-- One left-to-right greedy pass of `re.sub(r'\n\s*\n', '\n\n', text)`:
at a newline whose following whitespace run contains another newline, the
match extends through the last newline of the run and is replaced by a
blank line.  The fuel argument (the input length suffices) only bounds the
recursion. -/
def nbGo : Nat → List Char → List Char
  | 0, l => l
  | _ + 1, [] => []
  | fuel + 1, c :: rest =>
    if c = '\n' then
      let w := rest.takeWhile isPySpace
      if w.contains '\n' then
        '\n' :: '\n' :: nbGo fuel (suffixAfterLastNl w ++ rest.drop w.length)
      else c :: nbGo fuel rest
    else c :: nbGo fuel rest

def normBlank (l : List Char) : List Char := nbGo l.length l

/-- The ordered selector heuristics of `extract_plain_description_text`
(`src/main.py` lines 133-136, identical in `src/local.py`). -/
def selectors : List Selector :=
  [.byId "jobDescriptionText".toList, .byClass "job-description".toList,
   .byClass "job-details".toList, .byId "job-details".toList,
   .byTag "article".toList, .byRoleAttr "main".toList,
   .byTag "main".toList, .byId "content".toList, .byClass "content".toList]

/-- The selector loop: try each selector in order and keep the first
element found (`break` after the first match). -/
def firstMatch : List Selector → HtmlForest → Option HtmlNode
  | [], _ => none
  | sel :: rest, doc =>
    match selectOneForest sel doc with
    | some e => some e
    | none => firstMatch rest doc

/-- Text of the chosen element: scripts/styles removed, separator-joined
stripped text, blank runs collapsed (`src/main.py` lines 152-158). -/
def elementText (el : HtmlNode) : List Char :=
  normBlank (getTextStrip (stripScripts el))

/-- `extract_plain_description_text` from `src/main.py` lines 119-164
(identical in `src/local.py` lines 123-162): try the ordered selector list,
fall back to the body, and return the element's cleaned plain text. -/
def extract_plain_description_text (html : Option HtmlForest) :
    Option (List Char) :=
  match html with
  | none => none
  | some doc =>
    let mce := firstMatch selectors doc
    let target :=
      match mce with
      | some e => some e
      | none => findBodyForest doc
    match target with
    | none => none
    | some el => some (elementText el)

theorem firstMatch_spec : ∀ (ss : List Selector) (doc : HtmlForest)
    (el : HtmlNode), firstMatch ss doc = some el →
    ∃ (i : Nat) (sel : Selector), ss[i]? = some sel ∧
      selectOneForest sel doc = some el ∧
      ∀ (j : Nat), j < i → ∀ sel', ss[j]? = some sel' →
        selectOneForest sel' doc = none := by
  intro ss
  induction ss with
  | nil => intro doc el h; simp [firstMatch] at h
  | cons sel rest ih =>
    intro doc el h
    simp only [firstMatch] at h
    cases hs : selectOneForest sel doc with
    | some e =>
      rw [hs] at h
      simp at h
      subst h
      exact ⟨0, sel, by simp, hs, fun j hj _ _ => absurd hj (Nat.not_lt_zero j)⟩
    | none =>
      rw [hs] at h
      obtain ⟨i, sel', hget, hsel, hprev⟩ := ih doc el h
      refine ⟨i + 1, sel', by simpa using hget, hsel, ?_⟩
      intro j hj sel'' hget''
      cases j with
      | zero =>
        simp at hget''
        rw [← hget'']
        exact hs
      | succ j' =>
        simp at hget''
        exact hprev j' (Nat.lt_of_succ_lt_succ hj) sel'' hget''

/--
Claim C8.  When some selector in the ordered heuristic list matches, content
selection returns the text of the element found by the first matching
selector (all higher-priority selectors having matched nothing), and the
body is used only when no selector in the list matches.
-/
theorem c8_selector_priority (doc : HtmlForest) :
    (∀ el, firstMatch selectors doc = some el →
      extract_plain_description_text (some doc) = some (elementText el) ∧
        ∃ (i : Nat) (sel : Selector), selectors[i]? = some sel ∧
          selectOneForest sel doc = some el ∧
          ∀ (j : Nat), j < i → ∀ sel', selectors[j]? = some sel' →
            selectOneForest sel' doc = none) ∧
    (firstMatch selectors doc = none →
      extract_plain_description_text (some doc) =
        (findBodyForest doc).map elementText) := by
  constructor
  · intro el h
    constructor
    · simp only [extract_plain_description_text, h]
    · exact firstMatch_spec selectors doc el h
  · intro h
    simp only [extract_plain_description_text, h]
    cases hb : findBodyForest doc with
    | none => simp [hb]
    | some b => simp [hb]

/-- A concrete page: a body containing navigation text and a
`div class="job-description"` with the description text. -/
def sampleJobDiv : HtmlNode :=
  .elem "div".toList none ["job-description".toList] none
    (.cons (.text "Great job".toList) .nil)

def sampleDoc : HtmlForest :=
  .cons (.elem "html".toList none [] none
    (.cons (.elem "body".toList none [] none
      (.cons (.text "Nav junk".toList) (.cons sampleJobDiv .nil))) .nil)) .nil

/--
Claim C8 witness: on a concrete page with both a body and a
`.job-description` element, selection returns the div's text (`Great job`),
not the body's (which would also contain `Nav junk`).
-/
theorem c8_selector_priority_witness :
    extract_plain_description_text (some sampleDoc) = some "Great job".toList ∧
      firstMatch selectors sampleDoc = some sampleJobDiv := by
  have h := ((c8_selector_priority sampleDoc).1 sampleJobDiv rfl).1
  refine ⟨?_, rfl⟩
  rw [h]
  decide

end MT
